import Mathlib

/-!
Shallow embedding of the GlyphOS kernel (MJLOG) Python modules
`core.py`, `phase.py` and `validation.py`, together with proofs of the
behavioural claims about them.

Modelling conventions:
- Python floats are modelled by real numbers (`ℝ`); `math.isfinite` is
  identically true on `ℝ`, so the `isfinite` guards of the source
  disappear in the embedding.
- Python `complex` is modelled by `ℂ`; `abs` is `Complex.abs` and
  `cmath.phase` is `Complex.arg`.
- Python `raise ValueError(...)` is modelled by `Except.error`
  (respectively `none` for the `ValueError` raised inside
  `random.Random.sample` when the population is too small).
- The `random.Random` generator object is modelled by an abstract
  stream of draws (`Rng`): `draw tick n` is the pair of indices produced
  by the `tick`-th call of `rng.sample(range(n), 2)`, guaranteed distinct
  and in range whenever `2 ≤ n`, and `uniform tick` is the value produced
  by the `tick`-th call of `rng.uniform(-pi, pi)`.  The tick argument is
  threaded sequentially, matching the single shared generator state of
  the source.
-/

open Real

/- Classical decidability is used for the real-valued guards of the
source's `if`/`raise` validation checks. -/
open Classical

namespace Glyphos

/-- Golden ratio constant `PHI = (1.0 + math.sqrt(5.0)) / 2.0` from `core.py`. -/
noncomputable def PHI : ℝ := (1 + Real.sqrt 5) / 2

/-- Canonical anchor `F_432 = 432.0` from `core.py`. -/
def F_432 : ℝ := 432.0

/-- Canonical anchor `F_838_776 = 838.776` from `core.py`. -/
def F_838_776 : ℝ := 838.776

/-- Anchor tolerance `ANCHOR_TOL_HZ = 1e-3` from `core.py`. -/
def ANCHOR_TOL_HZ : ℝ := 1e-3

/-- Python float modulus `a % m` for the case `m > 0` used by the source:
`a % m = a - m * floor(a / m)`. -/
noncomputable def fmod (a m : ℝ) : ℝ := a - m * ⌊a / m⌋

/-- `_wrap_pi` from `validation.py`:
`(x + math.pi) % (2.0 * math.pi) - math.pi`. -/
noncomputable def _wrap_pi (x : ℝ) : ℝ := fmod (x + Real.pi) (2 * Real.pi) - Real.pi

/-- Abstract model of a `random.Random` generator state (see the header
comment): a stream of index-pair draws and a stream of uniform floats,
indexed by how many draws the generator has already served. -/
structure Rng where
  draw : ℕ → ℕ → ℕ × ℕ
  uniform : ℕ → ℝ
  draw_mem : ∀ tick n, 2 ≤ n →
    (draw tick n).1 < n ∧ (draw tick n).2 < n ∧ (draw tick n).1 ≠ (draw tick n).2

/-- `rng.sample(range(n), 2)`: returns the generator's next pair when the
population has at least 2 elements, and raises (`none`) otherwise. -/
def Rng.sample2 (g : Rng) (tick n : ℕ) : Option (ℕ × ℕ) :=
  if 2 ≤ n then some (g.draw tick n) else none

/-- Cell access `M[i][j]` on a nested list, with junk default `0` for
out-of-range indices (the source never reads out of range). -/
def cell {α : Type} [Inhabited α] (M : List (List α)) (i j : ℕ) : α :=
  (M.getD i []).getD j default

/-- Loop body of `sample_minors` from `validation.py`, recursing over the
remaining iteration count and threading the generator tick: each
iteration draws a row pair and a column pair, forms the 2x2 minor
determinant `d = M[i1][j1]*M[i2][j2] - M[i1][j2]*M[i2][j1]`, and prepends
`abs(d)` and `cmath.phase(d)` to the result sequences. -/
noncomputable def sampleMinorsAux (M : List (List ℂ)) (N K : ℕ) (g : Rng) :
    ℕ → ℕ → Option (List ℝ × List ℝ)
  | 0, _ => some ([], [])
  | n + 1, tick =>
    match g.sample2 tick N, g.sample2 (tick + 1) K with
    | some (i1, i2), some (j1, j2) =>
      let d := cell M i1 j1 * cell M i2 j2 - cell M i1 j2 * cell M i2 j1
      match sampleMinorsAux M N K g n (tick + 2) with
      | some (mags, phases) => some (Complex.abs d :: mags, Complex.arg d :: phases)
      | none => none
    | _, _ => none

/-- `sample_minors(M, n_samples, rng)` from `validation.py`.
`N = len(M)` and `K = len(M[0]) if N else 0` (note `(M.headD []).length`
equals both branches of that conditional). -/
noncomputable def sample_minors (M : List (List ℂ)) (n_samples : ℕ) (g : Rng) :
    Option (List ℝ × List ℝ) :=
  sampleMinorsAux M M.length (M.headD []).length g n_samples 0

/-- A concrete generator state, used to instantiate theorems. -/
def testRng : Rng where
  draw := fun _ _ => (0, 1)
  uniform := fun _ => 0
  draw_mem := fun _ n h => ⟨lt_of_lt_of_le Nat.zero_lt_two h, lt_of_lt_of_le Nat.one_lt_two h, by simp⟩

/-- `mean_resultant_length(phases)` from `validation.py`:
`abs(sum(cmath.exp(1j*p) for p in phases)) / len(phases)` for a non-empty
sequence, `0.0` for an empty one. -/
noncomputable def mean_resultant_length (phases : List ℝ) : ℝ :=
  if phases.isEmpty then 0
  else Complex.abs ((phases.map fun p : ℝ => Complex.exp (Complex.I * (p : ℂ))).sum) / phases.length

/-- Inner loop of `phase_scramble` over one row, threading the generator
tick: each cell keeps `abs(z)` and gets phase `rng.uniform(-pi, pi)`,
i.e. `mag * cmath.exp(1j*ph)`. -/
noncomputable def scrambleRow (g : Rng) : ℕ → List ℂ → List ℂ
  | _, [] => []
  | t, z :: zs =>
    (↑(Complex.abs z) * Complex.exp (Complex.I * ↑(g.uniform t))) :: scrambleRow g (t + 1) zs

/-- Outer loop of `phase_scramble` over the rows, threading the tick past
each processed row. -/
noncomputable def scrambleRows (g : Rng) : ℕ → List (List ℂ) → List (List ℂ)
  | _, [] => []
  | t, row :: rest => scrambleRow g t row :: scrambleRows g (t + row.length) rest

/-- `phase_scramble(M, rng)` from `validation.py`. -/
noncomputable def phase_scramble (M : List (List ℂ)) (g : Rng) : List (List ℂ) :=
  scrambleRows g 0 M

/-- Squared Euclidean distance accumulation shared by
`phase_gradient_proxy` (`validation.py`) and `retarded_delays`
(`phase.py`): `sum((a - b) ** 2 for a, b in zip(p, q))`. -/
def dist2 (p q : List ℝ) : ℝ :=
  ((p.zip q).map fun ab => (ab.1 - ab.2) ^ 2).sum

/-- `phase_gradient_proxy(theta_ij, X, edges, j)` from `validation.py`:
per edge `(i, k)`, if the Euclidean distance between `X[i]` and `X[k]` is
positive, contribute `abs(_wrap_pi(theta[i][j] - theta[k][j])) / dist`;
zero-distance edges are skipped; the result is the mean of the
contributions, `0.0` when every edge was skipped. -/
noncomputable def phase_gradient_proxy (theta_ij : List (List ℝ)) (X : List (List ℝ))
    (edges : List (ℕ × ℕ)) (j : ℕ) : ℝ :=
  let contribs := edges.filterMap fun e =>
    let dist := Real.sqrt (dist2 (X.getD e.1 []) (X.getD e.2 []))
    if dist ≤ 0 then none
    else some (|_wrap_pi ((theta_ij.getD e.1 []).getD j 0 - (theta_ij.getD e.2 []).getD j 0)| / dist)
  if contribs.length = 0 then 0 else contribs.sum / contribs.length

/-- `retarded_delays(X, x_star, v)` from `phase.py`, row loop: raises on
the first row whose dimensionality mismatches `x_star`, otherwise
appends `sqrt(d2) / v`. -/
noncomputable def delaysAux (x_star : List ℝ) (v : ℝ) : List (List ℝ) → Except String (List ℝ)
  | [] => Except.ok []
  | xi :: rest =>
    if xi.length ≠ x_star.length then Except.error "X and x_star must have same dimension"
    else
      match delaysAux x_star v rest with
      | Except.ok tl => Except.ok (Real.sqrt (dist2 xi x_star) / v :: tl)
      | Except.error e => Except.error e

/-- `retarded_delays(X, x_star, v)` from `phase.py`:
`tau_i = norm(x_i - x_star) / v`, raising when `v <= 0` before any row is
processed. -/
noncomputable def retarded_delays (X : List (List ℝ)) (x_star : List ℝ) (v : ℝ) :
    Except String (List ℝ) :=
  if v ≤ 0 then Except.error "v must be > 0" else delaysAux x_star v X

/-- `retarded_phase_matrix(a_j, tau_i, nu0_hz, t, psi_j)` from `phase.py`:
`theta_ij(t) = Omega_j * (t - tau_i) + psi_j` with
`Omega_j = 2 pi nu0 a_j`; `psi_j` defaults to `[0.0] * K` and its length
must equal `K = len(a_j)`. -/
noncomputable def retarded_phase_matrix (a_j tau_i : List ℝ) (nu0_hz : ℝ) (t : ℝ)
    (psi_j : Option (List ℝ)) : Except String (List (List ℝ)) :=
  if (psi_j.getD (List.replicate a_j.length 0)).length ≠ a_j.length then
    Except.error "psi_j length must equal len(a_j)"
  else
    Except.ok (tau_i.map fun tau =>
      (((a_j.map fun aj => 2 * Real.pi * nu0_hz * aj).zip
          (psi_j.getD (List.replicate a_j.length 0))).map
        fun p => p.1 * (t - tau) + p.2))

/-- `mjlog(nu_i_hz, a_j, nu0_hz, theta_ij)` from `core.py`:
`M_ij = log((nu_i/nu0) * a_j) * exp(i theta_ij)`, after validating in
source order that `nu0 > 0`, every `nu_i > 0`, every `a_j > 0`, that a
supplied `theta_ij` has `len(nu_i)` rows each of length `len(a_j)`
(`theta_ij` defaults to the all-zero matrix of that shape), and that
every per-cell log-argument is `> 0`.  The `isfinite` guards of the
source hold identically on `ℝ`. -/
noncomputable def mjlog (nu_i_hz a_j : List ℝ) (nu0_hz : ℝ)
    (theta_ij : Option (List (List ℝ))) : Except String (List (List ℂ)) :=
  if nu0_hz ≤ 0 then Except.error "nu0_hz must be > 0"
  else if ∃ nu ∈ nu_i_hz, nu ≤ 0 then Except.error "nu_i_hz entries must be > 0"
  else if ∃ aj ∈ a_j, aj ≤ 0 then Except.error "a_j entries must be > 0"
  else if (theta_ij.getD (List.replicate nu_i_hz.length (List.replicate a_j.length 0))).length
      ≠ nu_i_hz.length then
    Except.error "theta_ij row count must equal len(nu_i_hz)"
  else if ∃ row ∈ theta_ij.getD (List.replicate nu_i_hz.length (List.replicate a_j.length 0)),
      row.length ≠ a_j.length then
    Except.error "theta_ij row length must equal len(a_j)"
  else if ∃ i < nu_i_hz.length, ∃ j < a_j.length,
      (nu_i_hz.getD i 0 / nu0_hz) * a_j.getD j 0 ≤ 0 then
    Except.error "MJLOG log-argument must be finite and positive"
  else
    Except.ok ((List.range nu_i_hz.length).map fun i =>
      (List.range a_j.length).map fun j =>
        (↑(Real.log ((nu_i_hz.getD i 0 / nu0_hz) * a_j.getD j 0)) : ℂ) *
          Complex.exp (Complex.I *
            (↑(((theta_ij.getD (List.replicate nu_i_hz.length
                (List.replicate a_j.length 0))).getD i []).getD j 0) : ℂ)))

/-- `golden_pi(phi)` from `core.py`: `pi_phi = 4 / sqrt(phi)`. -/
noncomputable def golden_pi (phi : ℝ := PHI) : ℝ := 4 / Real.sqrt phi

/-- `bridge_frequency(base, pi, phi)` from `core.py`: `f_b = 432 * (pi/phi)`. -/
noncomputable def bridge_frequency (base_freq_hz : ℝ := F_432) (pi : ℝ := Real.pi)
    (phi : ℝ := PHI) : ℝ := base_freq_hz * (pi / phi)

/-- `_is_pos_finite(x)` from `core.py`; on `ℝ` the `isfinite` conjunct is
identically true. -/
def _is_pos_finite (x : ℝ) : Prop := 0 < x

/-- `has_anchor(freqs_hz, target_hz, tol_hz)` from `core.py`:
some frequency lies within `tol_hz` of `target_hz`. -/
def has_anchor (freqs_hz : List ℝ) (target_hz : ℝ) (tol_hz : ℝ := ANCHOR_TOL_HZ) : Prop :=
  ∃ f ∈ freqs_hz, |f - target_hz| ≤ tol_hz

/-- Eligibility of `gate_11(nu_i_hz, a_j, nu0_hz, require_432, require_838)`
from `core.py`, rendered as the conjunction of the conditions whose
failure triggers the early `eligible=False` returns, in source order:
`nu0` positive finite, both input lists non-empty with positive finite
entries, and each required anchor present. -/
def gate11Eligible (nu_i_hz a_j : List ℝ) (nu0_hz : ℝ)
    (require_432 require_838 : Bool) : Prop :=
  _is_pos_finite nu0_hz ∧ nu_i_hz ≠ [] ∧ a_j ≠ [] ∧
    (∀ nu ∈ nu_i_hz, _is_pos_finite nu) ∧ (∀ aj ∈ a_j, _is_pos_finite aj) ∧
    (require_432 = true → has_anchor nu_i_hz F_432) ∧
    (require_838 = true → has_anchor nu_i_hz F_838_776)

/-- Eligibility of `gate_22(nu_i_hz, a_j, nu0_hz)` from `core.py`:
`gate_11` with default options must pass, and the invariant computations
`golden_pi` and `bridge_frequency` must be positive finite. -/
noncomputable def gate22Eligible (nu_i_hz a_j : List ℝ) (nu0_hz : ℝ) : Prop :=
  gate11Eligible nu_i_hz a_j nu0_hz false false ∧
    _is_pos_finite (golden_pi PHI) ∧ _is_pos_finite (bridge_frequency F_432 Real.pi PHI)

/-- Eligibility of `gate_33(nu_i_hz, a_j, nu0_hz)` from `core.py`:
passes exactly when `gate_22` passes. -/
noncomputable def gate33Eligible (nu_i_hz a_j : List ℝ) (nu0_hz : ℝ) : Prop :=
  gate22Eligible nu_i_hz a_j nu0_hz

/-- Eligibility of `gate_44(nu_i_hz, a_j, nu0_hz)` from `core.py`:
`gate_11` with both anchors required must pass, and `gate_22` must pass. -/
noncomputable def gate44Eligible (nu_i_hz a_j : List ℝ) (nu0_hz : ℝ) : Prop :=
  gate11Eligible nu_i_hz a_j nu0_hz true true ∧ gate22Eligible nu_i_hz a_j nu0_hz

/-! ### Helper lemmas -/

/-- The Python modulus with positive modulus lands in `[0, m)`. -/
theorem fmod_mem_Ico (a m : ℝ) (hm : 0 < m) : fmod a m ∈ Set.Ico 0 m := by
  have h1 : (⌊a / m⌋ : ℝ) * m ≤ a := by
    rw [← le_div_iff₀ hm]
    exact Int.floor_le (a / m)
  have h2 : a < ((⌊a / m⌋ : ℝ) + 1) * m := by
    rw [← div_lt_iff₀ hm]
    exact Int.lt_floor_add_one (a / m)
  unfold fmod
  constructor
  · nlinarith
  · nlinarith

/-- Magnitude of a unit-phase factor. -/
theorem abs_exp_I_mul (x : ℝ) : Complex.abs (Complex.exp (Complex.I * x)) = 1 := by
  rw [mul_comm]
  exact Complex.abs_exp_ofReal_mul_I x

theorem scrambleRow_length (g : Rng) (t : ℕ) (row : List ℂ) :
    (scrambleRow g t row).length = row.length := by
  induction row generalizing t with
  | nil => rfl
  | cons z zs ih => simp [scrambleRow, ih]

theorem scrambleRow_abs (g : Rng) (t j : ℕ) (row : List ℂ) :
    Complex.abs ((scrambleRow g t row).getD j 0) = Complex.abs (row.getD j 0) := by
  induction row generalizing t j with
  | nil => rfl
  | cons z zs ih =>
    cases j with
    | zero =>
      simp only [scrambleRow, List.getD_cons_zero]
      rw [map_mul, abs_exp_I_mul, mul_one, Complex.abs_ofReal, Complex.abs_abs]
    | succ j => simpa [scrambleRow] using ih (t + 1) j

theorem scrambleRows_length (g : Rng) (t : ℕ) (M : List (List ℂ)) :
    (scrambleRows g t M).length = M.length := by
  induction M generalizing t with
  | nil => rfl
  | cons row rest ih => simp [scrambleRows, ih]

theorem scrambleRows_row_length (g : Rng) (t i : ℕ) (M : List (List ℂ)) :
    ((scrambleRows g t M).getD i []).length = (M.getD i []).length := by
  induction M generalizing t i with
  | nil => rfl
  | cons row rest ih =>
    cases i with
    | zero => simp [scrambleRows, scrambleRow_length]
    | succ i => simpa [scrambleRows] using ih (t + row.length) i

theorem scrambleRows_abs (g : Rng) (t i j : ℕ) (M : List (List ℂ)) :
    Complex.abs (((scrambleRows g t M).getD i []).getD j 0)
      = Complex.abs ((M.getD i []).getD j 0) := by
  induction M generalizing t i with
  | nil => rfl
  | cons row rest ih =>
    cases i with
    | zero => simpa [scrambleRows] using scrambleRow_abs g t j row
    | succ i => simpa [scrambleRows] using ih (t + row.length) i

theorem delaysAux_error_iff (x_star : List ℝ) (v : ℝ) (X : List (List ℝ)) :
    (∃ e, delaysAux x_star v X = Except.error e) ↔
      ∃ xi ∈ X, xi.length ≠ x_star.length := by
  induction X with
  | nil => simp [delaysAux]
  | cons xi rest ih =>
    by_cases h : xi.length ≠ x_star.length
    · simp only [delaysAux, if_pos h]
      constructor
      · intro _
        exact ⟨xi, List.mem_cons_self xi rest, h⟩
      · intro _
        exact ⟨_, rfl⟩
    · simp only [delaysAux, if_neg h]
      cases hrec : delaysAux x_star v rest with
      | ok tl =>
        rw [hrec] at ih
        simp only [List.mem_cons]
        constructor
        · rintro ⟨e, he⟩
          exact absurd he (by simp)
        · rintro ⟨yi, hyi | hyi, hlen⟩
          · exact absurd hlen (by simpa [hyi] using h)
          · obtain ⟨e, he⟩ := ih.mpr ⟨yi, hyi, hlen⟩
            exact absurd he (by simp)
      | error e =>
        rw [hrec] at ih
        simp only [List.mem_cons]
        constructor
        · intro _
          obtain ⟨yi, hyi, hlen⟩ := ih.mp ⟨e, rfl⟩
          exact ⟨yi, Or.inr hyi, hlen⟩
        · intro _
          exact ⟨e, rfl⟩

/-! ### Claim theorems -/

/-- Claim C2, counterexample: at the input `x = π` the wrapper
`_wrap_pi` returns `−π`, which does not lie in the claimed half-open
interval `(−π, π]`. -/
theorem C2_wrap_pi_counterexample :
    _wrap_pi Real.pi = -Real.pi ∧ _wrap_pi Real.pi ∉ Set.Ioc (-Real.pi) Real.pi := by
  have hpi : (0 : ℝ) < Real.pi := Real.pi_pos
  have hq : (Real.pi + Real.pi) / (2 * Real.pi) = 1 := by
    rw [div_eq_one_iff_eq (by positivity)]
    ring
  have hval : _wrap_pi Real.pi = -Real.pi := by
    unfold _wrap_pi fmod
    rw [hq]
    norm_num
    ring
  refine ⟨hval, ?_⟩
  rw [hval]
  simp [Set.mem_Ioc]

/-- Claim C2 (amended): the wrapping `((x + π) mod 2π) − π` of
`_wrap_pi`, as used by `phase_gradient_proxy`, maps every real `x` to a
value congruent to `x` modulo `2π` that lies in the half-open interval
`[−π, π)` (closed on the left, open on the right). -/
theorem C2_wrap_pi_amended (x : ℝ) :
    (∃ k : ℤ, _wrap_pi x = x - 2 * Real.pi * k) ∧
      _wrap_pi x ∈ Set.Ico (-Real.pi) Real.pi := by
  have h2pi : (0 : ℝ) < 2 * Real.pi := by positivity
  obtain ⟨h0, h1⟩ := fmod_mem_Ico (x + Real.pi) (2 * Real.pi) h2pi
  constructor
  · refine ⟨⌊(x + Real.pi) / (2 * Real.pi)⌋, ?_⟩
    unfold _wrap_pi fmod
    ring
  · unfold _wrap_pi
    constructor
    · linarith
    · linarith

/-- The unit-vector sum of an offset phase sequence factors through the
offset's unit vector. -/
theorem sum_exp_map_offset (ps : List ℝ) (c : ℝ) :
    (List.map (fun p : ℝ => Complex.exp (Complex.I * (p : ℂ))) (ps.map fun p => p + c)).sum
      = (List.map (fun p : ℝ => Complex.exp (Complex.I * (p : ℂ))) ps).sum
          * Complex.exp (Complex.I * (c : ℂ)) := by
  rw [List.map_map, ← List.sum_map_mul_right]
  refine congrArg List.sum (List.map_congr_left fun q _ => ?_)
  simp only [Function.comp_apply]
  push_cast
  rw [mul_add, Complex.exp_add]

/-- Claim C7: `mean_resultant_length` is invariant under adding a
constant offset `c` to every phase in the sequence. -/
theorem C7_mean_resultant_length_offset_invariant (ps : List ℝ) (c : ℝ) :
    mean_resultant_length (ps.map fun p => p + c) = mean_resultant_length ps := by
  unfold mean_resultant_length
  have hempty : (ps.map fun p => p + c).isEmpty = ps.isEmpty := by
    cases ps <;> simp
  rw [hempty]
  by_cases h : ps.isEmpty
  · rw [if_pos h, if_pos h]
  · rw [if_neg h, if_neg h, sum_exp_map_offset, map_mul, abs_exp_I_mul, mul_one,
      List.length_map]

/-- Claim C6: `phase_scramble` returns a matrix of the same shape as its
input in which the magnitude of every cell is preserved exactly. -/
theorem C6_phase_scramble_preserves_magnitude (M : List (List ℂ)) (g : Rng) :
    (phase_scramble M g).length = M.length ∧
      (∀ i, ((phase_scramble M g).getD i []).length = (M.getD i []).length) ∧
      (∀ i j, Complex.abs (((phase_scramble M g).getD i []).getD j 0)
          = Complex.abs ((M.getD i []).getD j 0)) :=
  ⟨scrambleRows_length g 0 M, fun i => scrambleRows_row_length g 0 i M,
    fun i j => scrambleRows_abs g 0 i j M⟩

/-- Claim C10: `retarded_delays(X, x_star, v)` raises an error exactly
when `v ≤ 0` or some row of `X` has a different length than `x_star`;
no other validation (in particular no finiteness check on `v`) is
performed.  (The NaN/∞ clause of the claim is float-specific; on the
real-number embedding every value is finite and the stated equivalence
is exactly the code's validation behaviour.) -/
theorem C10_retarded_delays_error_iff (X : List (List ℝ)) (x_star : List ℝ) (v : ℝ) :
    (∃ e, retarded_delays X x_star v = Except.error e) ↔
      (v ≤ 0 ∨ ∃ xi ∈ X, xi.length ≠ x_star.length) := by
  unfold retarded_delays
  by_cases hv : v ≤ 0
  · simp [hv]
  · simp [hv, delaysAux_error_iff]

/-- Claim C10 instantiated: a non-positive speed is rejected on a
concrete input. -/
theorem C10_retarded_delays_error_iff_witness :
    ∃ e, retarded_delays [[1, 2]] [0, 0] (-1) = Except.error e :=
  (C10_retarded_delays_error_iff [[1, 2]] [0, 0] (-1)).mpr (Or.inl (by norm_num))

/-- Success run of the sampling loop when both index populations have at
least two elements: each iteration's draws succeed, and the appended
magnitude and phase satisfy `0 ≤ abs d` and `arg d ∈ (−π, π]`. -/
theorem sampleMinorsAux_ok (M : List (List ℂ)) (N K : ℕ) (g : Rng)
    (hN : 2 ≤ N) (hK : 2 ≤ K) (S tick : ℕ) :
    ∃ mags phases, sampleMinorsAux M N K g S tick = some (mags, phases) ∧
      mags.length = S ∧ phases.length = S ∧
      (∀ m ∈ mags, 0 ≤ m) ∧ (∀ p ∈ phases, -Real.pi < p ∧ p ≤ Real.pi) := by
  induction S generalizing tick with
  | zero => exact ⟨[], [], rfl, rfl, rfl, by simp, by simp⟩
  | succ n ih =>
    obtain ⟨mags, phases, heq, hm, hp, hmn, hpr⟩ := ih (tick + 2)
    refine ⟨Complex.abs (cell M (g.draw tick N).1 (g.draw (tick + 1) K).1 *
          cell M (g.draw tick N).2 (g.draw (tick + 1) K).2 -
        cell M (g.draw tick N).1 (g.draw (tick + 1) K).2 *
          cell M (g.draw tick N).2 (g.draw (tick + 1) K).1) :: mags,
      Complex.arg (cell M (g.draw tick N).1 (g.draw (tick + 1) K).1 *
          cell M (g.draw tick N).2 (g.draw (tick + 1) K).2 -
        cell M (g.draw tick N).1 (g.draw (tick + 1) K).2 *
          cell M (g.draw tick N).2 (g.draw (tick + 1) K).1) :: phases,
      ?_, by simp [hm], by simp [hp], ?_, ?_⟩
    · simp only [sampleMinorsAux, Rng.sample2, if_pos hN, if_pos hK, heq]
    · intro m hmem
      rcases List.mem_cons.mp hmem with h | h
      · subst h
        exact AbsoluteValue.nonneg _ _
      · exact hmn m h
    · intro p hmem
      rcases List.mem_cons.mp hmem with h | h
      · subst h
        exact Set.mem_Ioc.mp (Complex.arg_mem_Ioc _)
      · exact hpr p h

/-- Claim C1: for every matrix with at least 2 rows and at least 2
columns, every sample count S and every generator state, sample_minors
returns magnitude and phase sequences of length exactly S, every
magnitude nonnegative and every phase in (−π, π]. -/
theorem C1_sample_minors_ok (M : List (List ℂ)) (S : ℕ) (g : Rng)
    (hN : 2 ≤ M.length) (hK : 2 ≤ (M.headD []).length) :
    ∃ mags phases, sample_minors M S g = some (mags, phases) ∧
      mags.length = S ∧ phases.length = S ∧
      (∀ m ∈ mags, 0 ≤ m) ∧ (∀ p ∈ phases, -Real.pi < p ∧ p ≤ Real.pi) :=
  sampleMinorsAux_ok M M.length (M.headD []).length g hN hK S 0

/-- Claim C1 instantiated at a concrete 2x2 matrix with sample count 3
and a concrete generator state. -/
theorem C1_sample_minors_ok_witness :
    ∃ mags phases,
      sample_minors [[(1 : ℂ), 0], [0, 1]] 3 testRng = some (mags, phases) ∧
      mags.length = 3 ∧ phases.length = 3 ∧
      (∀ m ∈ mags, 0 ≤ m) ∧ (∀ p ∈ phases, -Real.pi < p ∧ p ≤ Real.pi) :=
  C1_sample_minors_ok [[(1 : ℂ), 0], [0, 1]] 3 testRng (by simp) (by simp)

/-- Claim C4, counterexample: a 1x1 matrix (fewer than 2 rows and fewer
than 2 columns) with sample count 0 does not fail: the loop body never
runs and two empty sequences are returned. -/
theorem C4_sample_minors_counterexample :
    [[(1 : ℂ)]].length < 2 ∧ sample_minors [[(1 : ℂ)]] 0 testRng = some ([], []) :=
  ⟨by simp, rfl⟩

/-- Claim C4 (amended): for every matrix with fewer than 2 rows or fewer
than 2 columns, sample_minors fails for every sample count of at least 1
(the first draw of two distinct indices raises); with sample count 0 it
instead returns two empty sequences. -/
theorem C4_sample_minors_small_matrix_fails (M : List (List ℂ)) (S : ℕ) (g : Rng)
    (hsmall : M.length < 2 ∨ (M.headD []).length < 2) (hS : 1 ≤ S) :
    sample_minors M S g = none := by
  obtain ⟨n, rfl⟩ : ∃ n, S = n + 1 := ⟨S - 1, by omega⟩
  unfold sample_minors
  by_cases hN : 2 ≤ M.length
  · have hK : ¬ 2 ≤ (M.headD []).length := by
      rcases hsmall with h | h
      · omega
      · omega
    simp only [sampleMinorsAux, Rng.sample2, if_pos hN, if_neg hK]
  · simp only [sampleMinorsAux, Rng.sample2, if_neg hN]

/-- Claim C4 (amended) instantiated: a 1x1 matrix with sample count 1
fails. -/
theorem C4_sample_minors_small_matrix_fails_witness :
    sample_minors [[(1 : ℂ)]] 1 testRng = none :=
  C4_sample_minors_small_matrix_fails [[(1 : ℂ)]] 1 testRng (Or.inl (by norm_num))
    (by norm_num)

/-- Claim C3: whenever gate_44 reports eligible on some inputs, gate_22
and gate_11 (with their default options) also report eligible on the
same inputs. -/
theorem C3_gate_chain_monotone (nu_i_hz a_j : List ℝ) (nu0_hz : ℝ)
    (h : gate44Eligible nu_i_hz a_j nu0_hz) :
    gate22Eligible nu_i_hz a_j nu0_hz ∧ gate11Eligible nu_i_hz a_j nu0_hz false false :=
  ⟨h.2, h.2.1⟩

/-- The golden ratio constant is positive. -/
theorem PHI_pos : 0 < PHI := by
  unfold PHI
  positivity

/-- A concrete input on which gate_44 is eligible: both anchors present,
all entries positive. -/
theorem gate44_concrete : gate44Eligible [432, 838.776] [1] 1 := by
  have hPHI := PHI_pos
  have hsq : 0 < Real.sqrt PHI := Real.sqrt_pos.mpr hPHI
  have h432 : has_anchor [432, 838.776] F_432 := by
    refine ⟨432, by simp, ?_⟩
    unfold F_432 ANCHOR_TOL_HZ
    norm_num
  have h838 : has_anchor [432, 838.776] F_838_776 := by
    refine ⟨838.776, by simp, ?_⟩
    unfold F_838_776 ANCHOR_TOL_HZ
    norm_num
  have hnu : ∀ nu ∈ ([432, 838.776] : List ℝ), _is_pos_finite nu := by
    intro nu hnu
    rcases List.mem_cons.mp hnu with h | h
    · rw [h]; norm_num [_is_pos_finite]
    · simp only [List.mem_singleton] at h
      rw [h]; norm_num [_is_pos_finite]
  have ha : ∀ aj ∈ ([1] : List ℝ), _is_pos_finite aj := by
    intro aj haj
    simp only [List.mem_singleton] at haj
    rw [haj]; norm_num [_is_pos_finite]
  have hg11 : ∀ r1 r2 : Bool, (r1 = true → has_anchor [432, 838.776] F_432) →
      (r2 = true → has_anchor [432, 838.776] F_838_776) →
      gate11Eligible [432, 838.776] [1] 1 r1 r2 := by
    intro r1 r2 h1 h2
    exact ⟨by norm_num [_is_pos_finite], by simp, by simp, hnu, ha, h1, h2⟩
  refine ⟨hg11 true true (fun _ => h432) (fun _ => h838),
    hg11 false false (by simp) (by simp), ?_, ?_⟩
  · unfold _is_pos_finite golden_pi
    positivity
  · unfold _is_pos_finite bridge_frequency F_432
    have := Real.pi_pos
    positivity

/-- Claim C3 instantiated at a concrete gate-44-eligible input. -/
theorem C3_gate_chain_monotone_witness :
    gate22Eligible [432, 838.776] [1] 1 ∧ gate11Eligible [432, 838.776] [1] 1 false false :=
  C3_gate_chain_monotone [432, 838.776] [1] 1 gate44_concrete

/-- Claim C9: gate_44 reports eligible only if the frequency list holds
a value within 1e-3 of 432.0 and a value within 1e-3 of 838.776; lacking
either anchor it reports eligible = false. -/
theorem C9_gate44_requires_anchors (nu_i_hz a_j : List ℝ) (nu0_hz : ℝ)
    (h : ¬ has_anchor nu_i_hz F_432 ∨ ¬ has_anchor nu_i_hz F_838_776) :
    ¬ gate44Eligible nu_i_hz a_j nu0_hz := by
  intro hg
  obtain ⟨h11, -⟩ := hg
  obtain ⟨-, -, -, -, -, h432, h838⟩ := h11
  rcases h with h | h
  · exact h (h432 rfl)
  · exact h (h838 rfl)

/-- Claim C9 instantiated: a frequency list with neither anchor is not
gate-44 eligible. -/
theorem C9_gate44_requires_anchors_witness : ¬ gate44Eligible [100] [1] 1 :=
  C9_gate44_requires_anchors [100] [1] 1
    (Or.inl (by norm_num [has_anchor, F_432, ANCHOR_TOL_HZ]))

/-- Claim C5: mjlog raises a domain error whenever ν0 ≤ 0, whenever some
scale value a[j] ≤ 0, and whenever some cell's log-argument
(ν[i]/ν0)·a[j] is ≤ 0; in each case no matrix is returned. -/
theorem C5_mjlog_domain_errors (nu_i_hz a_j : List ℝ) (nu0_hz : ℝ)
    (theta_ij : Option (List (List ℝ)))
    (h : nu0_hz ≤ 0 ∨ (∃ aj ∈ a_j, aj ≤ 0) ∨
      (∃ i < nu_i_hz.length, ∃ j < a_j.length,
        (nu_i_hz.getD i 0 / nu0_hz) * a_j.getD j 0 ≤ 0)) :
    ∃ msg, mjlog nu_i_hz a_j nu0_hz theta_ij = Except.error msg := by
  unfold mjlog
  split_ifs with h1 h2 h3 h4 h5 h6
  · exact ⟨_, rfl⟩
  · exact ⟨_, rfl⟩
  · exact ⟨_, rfl⟩
  · exact ⟨_, rfl⟩
  · exact ⟨_, rfl⟩
  · exact ⟨_, rfl⟩
  · rcases h with h | h | h
    · exact absurd h h1
    · exact absurd h h3
    · exact absurd h h6

/-- Claim C5 instantiated: a non-positive reference frequency is
rejected. -/
theorem C5_mjlog_domain_errors_witness :
    ∃ msg, mjlog [1] [1] (-1) none = Except.error msg :=
  C5_mjlog_domain_errors [1] [1] (-1) none (Or.inl (by norm_num))

/-- `getD` of a mapped list at an in-range index, for an arbitrary pair
of defaults. -/
theorem getD_map_of_lt {α β : Type} (f : α → β) (l : List α) (i : ℕ)
    (h : i < l.length) (d : β) (d' : α) :
    (l.map f).getD i d = f (l.getD i d') := by
  induction l generalizing i with
  | nil => simp at h
  | cons x xs ih =>
    cases i with
    | zero => simp
    | succ i =>
      simp only [List.map_cons, List.getD_cons_succ]
      exact ih i (by simpa using h)

/-- Cell of one row of `retarded_phase_matrix`: the zip of the angular
frequencies with psi, read at an in-range column index. -/
theorem rpmRow_getD (aL psi : List ℝ) (c t tau : ℝ) (j : ℕ)
    (hj : j < aL.length) (hlen : psi.length = aL.length) :
    (((aL.map fun aj => c * aj).zip psi).map fun p => p.1 * (t - tau) + p.2).getD j 0
      = c * aL.getD j 0 * (t - tau) + psi.getD j 0 := by
  induction aL generalizing psi j with
  | nil => simp at hj
  | cons a as ih =>
    cases psi with
    | nil => simp at hlen
    | cons q qs =>
      cases j with
      | zero => simp
      | succ j =>
        simp only [List.map_cons, List.zip_cons_cons, List.getD_cons_succ]
        exact ih qs j (by simpa using hj) (by simpa using hlen)

/-- Length of one row of `retarded_phase_matrix` when psi has the right
length. -/
theorem rpmRow_length (aL psi : List ℝ) (c t tau : ℝ) (hlen : psi.length = aL.length) :
    (((aL.map fun aj => c * aj).zip psi).map fun p => p.1 * (t - tau) + p.2).length
      = aL.length := by
  simp [List.length_zip, hlen]

/-- Claim C8: retarded_phase_matrix fails when a supplied psi length
differs from len(a_j); otherwise (including the omitted-psi default of
all zeros) it returns θ of shape len(tau) x len(a) with
θ[i][j] = 2π·ν0·a[j]·(t − τ[i]) + ψ[j] for every cell. -/
theorem C8_retarded_phase_matrix_spec (a_j tau_i : List ℝ) (nu0_hz t : ℝ) :
    (∀ psi : List ℝ, psi.length ≠ a_j.length →
      ∃ msg, retarded_phase_matrix a_j tau_i nu0_hz t (some psi) = Except.error msg) ∧
    (∀ psi : Option (List ℝ),
      (psi.getD (List.replicate a_j.length 0)).length = a_j.length →
      ∃ theta, retarded_phase_matrix a_j tau_i nu0_hz t psi = Except.ok theta ∧
        theta.length = tau_i.length ∧
        (∀ i < tau_i.length, (theta.getD i []).length = a_j.length ∧
          ∀ j < a_j.length, (theta.getD i []).getD j 0 =
            2 * Real.pi * nu0_hz * a_j.getD j 0 * (t - tau_i.getD i 0) +
              (psi.getD (List.replicate a_j.length 0)).getD j 0)) := by
  constructor
  · intro psi hpsi
    unfold retarded_phase_matrix
    rw [if_pos (by simpa using hpsi)]
    exact ⟨_, rfl⟩
  · intro psi hpsi
    unfold retarded_phase_matrix
    rw [if_neg (by simpa using hpsi)]
    refine ⟨_, rfl, by simp, ?_⟩
    intro i hi
    rw [getD_map_of_lt _ tau_i i hi [] 0]
    exact ⟨rpmRow_length a_j _ (2 * Real.pi * nu0_hz) t (tau_i.getD i 0) hpsi,
      fun j hj => rpmRow_getD a_j _ (2 * Real.pi * nu0_hz) t (tau_i.getD i 0) j hj hpsi⟩

/-- Claim C8 instantiated: a psi of the wrong length is rejected on a
concrete input. -/
theorem C8_retarded_phase_matrix_spec_witness :
    ∃ msg, retarded_phase_matrix [1, 2] [0] 3 0 (some [5]) = Except.error msg :=
  (C8_retarded_phase_matrix_spec [1, 2] [0] 3 0).1 [5] (by norm_num)

end Glyphos
